import Mathlib

/-!
Shallow embedding of the error-reporting module of the `mininip` crate
(`src/errors/mod.rs`).

Rust `String` values are embedded as `List Char`; the byte length of a
string is the sum of the UTF-8 sizes of its characters.  A `panic!` or a
failing `assert!` is embedded as `none`: every fallible operation returns
an `Option`.  Byte slicing `&s[..i]` / `&s[i..]`, which panics in Rust when
`i` is not a character boundary, is embedded by `takeBytes` / `dropBytes`,
which return `none` exactly in the panicking cases.
-/

/-- Byte length of a string, i.e. Rust `String::len` (sum of UTF-8 sizes). -/
def byteLen : List Char → Nat
  | [] => 0
  | c :: cs => c.utf8Size + byteLen cs

/-- Rust `&s[..i]`: the characters of `s` whose encoding lies in the first
`i` bytes, or `none` when `i` is not a character boundary of `s`
(including `i >` byte length), in which case Rust panics. -/
def takeBytes : List Char → Nat → Option (List Char)
  | _, 0 => some []
  | [], _ + 1 => none
  | c :: cs, i + 1 =>
      if c.utf8Size ≤ i + 1 then
        (takeBytes cs (i + 1 - c.utf8Size)).map (fun pre => c :: pre)
      else none

/-- Rust `&s[i..]`: the characters of `s` past the first `i` bytes, or
`none` when `i` is not a character boundary of `s`. -/
def dropBytes : List Char → Nat → Option (List Char)
  | s, 0 => some s
  | [], _ + 1 => none
  | c :: cs, i + 1 =>
      if c.utf8Size ≤ i + 1 then dropBytes cs (i + 1 - c.utf8Size) else none

/-- Specification-level character lookup by byte offset: the character of
`s` whose UTF-8 encoding starts exactly at byte offset `i`, if any. -/
def charAtOff : List Char → Nat → Option Char
  | [], _ => none
  | c :: _, 0 => some c
  | c :: cs, i + 1 =>
      if c.utf8Size ≤ i + 1 then charAtOff cs (i + 1 - c.utf8Size) else none

/-- Rust `str::char_indices` starting from byte offset `base`. -/
def charIndicesAux : Nat → List Char → List (Nat × Char)
  | _, [] => []
  | base, c :: cs => (base, c) :: charIndicesAux (base + c.utf8Size) cs

/-- Rust `str::char_indices`: each character paired with its byte offset. -/
def char_indices (s : List Char) : List (Nat × Char) :=
  charIndicesAux 0 s

/-- The `for (n, i) in string.char_indices()` loop of `nth_char`: `last_n`
is updated to `n`, then the loop breaks with the found character when
`n == index`, panics (`none`) when `n > index`, and otherwise continues.
On normal exit it yields the running `token` and the final `last_n`. -/
def nthCharLoop : List (Nat × Char) → Nat → Char → Nat → Option (Char × Nat)
  | [], _, token, last_n => some (token, last_n)
  | (n, c) :: rest, index, token, _ =>
      if n = index then some (c, n)
      else if index < n then none
      else nthCharLoop rest index token n

/-- Rust `nth_char` from `src/errors/mod.rs`: asserts `index < string.len()`,
runs the `char_indices` loop with `token = '\0'` and `last_n = 0`, and
finally asserts `last_n == index` before returning `token`.  `none`
embeds the panicking paths. -/
def nth_char (string : List Char) (index : Nat) : Option Char :=
  if byteLen string > index then
    match nthCharLoop (char_indices string) index '\x00' 0 with
    | none => none
    | some (token, last_n) => if last_n = index then some token else none
  else none

/-- Rust `str::is_prefix`-style check used to implement substring search:
`isPrefixList pat s` holds when `pat` is an initial segment of `s`. -/
def isPrefixList : List Char → List Char → Bool
  | [], _ => true
  | _ :: _, [] => false
  | a :: as, b :: bs => a == b && isPrefixList as bs

/-- Rust `line.find(&pat).is_some()`: whether `pat` occurs contiguously in
`line`.  Byte-level search in valid UTF-8 only ever matches at character
boundaries (UTF-8 is self-synchronising), so it coincides with this
character-level search. -/
def containsSub (line pat : List Char) : Bool :=
  match line with
  | [] => isPrefixList pat []
  | c :: rest => isPrefixList pat (c :: rest) || containsSub rest pat

namespace error_kinds

structure ExpectedIdentifier where
  index : Nat
  line : List Char
  deriving DecidableEq

/-- Rust `impl Display for ExpectedIdentifier`:
`write!(f, "Expected identifier {}{{here}}{}", &line[..index], &line[index..])`.
`none` when a byte slice panics. -/
def ExpectedIdentifier.fmt (e : ExpectedIdentifier) : Option (List Char) :=
  match takeBytes e.line e.index, dropBytes e.line e.index with
  | some a, some b =>
      some ("Expected identifier ".data ++ a ++ "\x7bhere\x7d".data ++ b)
  | _, _ => none

/-- Rust `ExpectedIdentifier::new`: asserts `line.len() > index`. -/
def ExpectedIdentifier.new (line : List Char) (index : Nat) :
    Option ExpectedIdentifier :=
  if byteLen line > index then some ⟨index, line⟩ else none

structure ExpectedToken where
  index : Nat
  line : List Char
  tokens : List Char
  deriving DecidableEq

/-- Rust `impl Display for ExpectedToken`:
`write!(f, "Expected {} {}{{here}}{}", tokens, &line[..index], &line[index..])`. -/
def ExpectedToken.fmt (e : ExpectedToken) : Option (List Char) :=
  match takeBytes e.line e.index, dropBytes e.line e.index with
  | some a, some b =>
      some ("Expected ".data ++ e.tokens ++ " ".data ++ a ++
            "\x7bhere\x7d".data ++ b)
  | _, _ => none

/-- Rust `ExpectedToken::new`: asserts `line.len() > index`. -/
def ExpectedToken.new (line : List Char) (index : Nat) (tokens : List Char) :
    Option ExpectedToken :=
  if byteLen line > index then some ⟨index, line, tokens⟩ else none

structure ExpectedEscape where
  index : Nat
  line : List Char
  replace : List Char
  token : Char
  deriving DecidableEq

/-- Rust `impl Display for ExpectedEscape`:
`write!(f, "Expected escape sequence {} instead of {} in {}{{here}}{}",
replace, token, &line[..index], &line[index + token.len_utf8()..])`. -/
def ExpectedEscape.fmt (e : ExpectedEscape) : Option (List Char) :=
  match takeBytes e.line e.index,
        dropBytes e.line (e.index + e.token.utf8Size) with
  | some a, some b =>
      some ("Expected escape sequence ".data ++ e.replace ++
            " instead of ".data ++ [e.token] ++ " in ".data ++ a ++
            "\x7bhere\x7d".data ++ b)
  | _, _ => none

/-- Rust `ExpectedEscape::new`: derives `token` via `nth_char(&line, index)`,
whose panics propagate. -/
def ExpectedEscape.new (line : List Char) (index : Nat) (replace : List Char) :
    Option ExpectedEscape :=
  match nth_char line index with
  | some token => some ⟨index, line, replace, token⟩
  | none => none

structure UnexpectedToken where
  index : Nat
  line : List Char
  token : Char
  deriving DecidableEq

/-- Rust `impl Display for UnexpectedToken`:
`write!(f, "Unexpected token {} {}{{here}}", token, &line[..index])`. -/
def UnexpectedToken.fmt (e : UnexpectedToken) : Option (List Char) :=
  match takeBytes e.line e.index with
  | some a =>
      some ("Unexpected token ".data ++ [e.token] ++ " ".data ++ a ++
            "\x7bhere\x7d".data)
  | none => none

/-- Rust `UnexpectedToken::new`: derives `token` via `nth_char(&line, index)`. -/
def UnexpectedToken.new (line : List Char) (index : Nat) :
    Option UnexpectedToken :=
  match nth_char line index with
  | some token => some ⟨index, line, token⟩
  | none => none

structure InvalidEscape where
  line : List Char
  escape : List Char
  deriving DecidableEq

/-- Rust `impl Display for InvalidEscape`:
`write!(f, "Invalid escape sequence {} in {}", escape, line)`. -/
def InvalidEscape.fmt (e : InvalidEscape) : Option (List Char) :=
  some ("Invalid escape sequence ".data ++ e.escape ++ " in ".data ++ e.line)

/-- Rust `InvalidEscape::new`: asserts `line.find(&escape).is_some()`. -/
def InvalidEscape.new (line escape : List Char) : Option InvalidEscape :=
  if containsSub line escape then some ⟨line, escape⟩ else none

structure InvalidIdentifier where
  line : List Char
  ident : List Char
  deriving DecidableEq

/-- Rust `impl Display for InvalidIdentifier`:
`write!(f, "Invalid identifier {} in {}", ident, line)`. -/
def InvalidIdentifier.fmt (e : InvalidIdentifier) : Option (List Char) :=
  some ("Invalid identifier ".data ++ e.ident ++ " in ".data ++ e.line)

/-- Rust `InvalidIdentifier::new`: asserts `line.find(&identifier).is_some()`
and `!Identifier::is_valid(&identifier)`.  `Identifier::is_valid` lives in
`crate::datas`, outside this module; it is taken as an opaque boolean
predicate parameter. -/
def InvalidIdentifier.new (is_valid : List Char → Bool)
    (line identifier : List Char) : Option InvalidIdentifier :=
  if containsSub line identifier then
    if is_valid identifier then none else some ⟨line, identifier⟩
  else none

end error_kinds

/-- The unified `Error` enum of `src/errors/mod.rs`. -/
inductive Error where
  | ExpectedIdentifier : error_kinds.ExpectedIdentifier → Error
  | ExpectedToken : error_kinds.ExpectedToken → Error
  | ExpectedEscape : error_kinds.ExpectedEscape → Error
  | UnexpectedToken : error_kinds.UnexpectedToken → Error
  | InvalidEscape : error_kinds.InvalidEscape → Error
  | InvalidIdentifier : error_kinds.InvalidIdentifier → Error
  deriving DecidableEq

/-- Rust `impl Display for Error`: `write!(f, "{}", err)` on the wrapped kind. -/
def Error.fmt : Error → Option (List Char)
  | Error.ExpectedIdentifier err => err.fmt
  | Error.ExpectedToken err => err.fmt
  | Error.ExpectedEscape err => err.fmt
  | Error.UnexpectedToken err => err.fmt
  | Error.InvalidEscape err => err.fmt
  | Error.InvalidIdentifier err => err.fmt

example : nth_char "aé".data 1 = some 'é' := by decide
example : nth_char "aé".data 2 = none := by decide
example : nth_char "é".data 1 = none := by decide
example : nth_char "abc".data 3 = none := by decide
example : error_kinds.ExpectedIdentifier.new "é".data 1 =
    some ⟨1, "é".data⟩ := by decide
example : (error_kinds.ExpectedIdentifier.mk 1 "é".data).fmt = none := by
  decide
example : (error_kinds.ExpectedToken.new "let x = 5".data 4 "'='".data).map
    error_kinds.ExpectedToken.fmt =
    some (some "Expected '=' let \x7bhere\x7dx = 5".data) := by decide

theorem byteLen_append (a b : List Char) :
    byteLen (a ++ b) = byteLen a + byteLen b := by
  induction a with
  | nil => simp [byteLen]
  | cons c cs ih => simp [byteLen, ih]; omega

theorem byteLen_eq_zero (s : List Char) : byteLen s = 0 ↔ s = [] := by
  cases s with
  | nil => simp [byteLen]
  | cons c cs =>
      have := Char.utf8Size_pos c
      simp [byteLen]
      omega

theorem takeBytes_append (pre post : List Char) :
    takeBytes (pre ++ post) (byteLen pre) = some pre := by
  induction pre with
  | nil => simp [takeBytes, byteLen]
  | cons c cs ih =>
      have hpos := Char.utf8Size_pos c
      have hb : byteLen (c :: cs) = c.utf8Size + byteLen cs := rfl
      obtain ⟨m, hm⟩ : ∃ m, byteLen (c :: cs) = m + 1 :=
        ⟨byteLen (c :: cs) - 1, by omega⟩
      rw [List.cons_append, hm]
      simp only [takeBytes]
      rw [if_pos (by omega)]
      have hsub : m + 1 - c.utf8Size = byteLen cs := by omega
      rw [hsub, ih]
      rfl

theorem dropBytes_append (pre post : List Char) :
    dropBytes (pre ++ post) (byteLen pre) = some post := by
  induction pre with
  | nil => simp [dropBytes, byteLen]
  | cons c cs ih =>
      have hpos := Char.utf8Size_pos c
      have hb : byteLen (c :: cs) = c.utf8Size + byteLen cs := rfl
      obtain ⟨m, hm⟩ : ∃ m, byteLen (c :: cs) = m + 1 :=
        ⟨byteLen (c :: cs) - 1, by omega⟩
      rw [List.cons_append, hm]
      simp only [dropBytes]
      rw [if_pos (by omega)]
      have hsub : m + 1 - c.utf8Size = byteLen cs := by omega
      rw [hsub, ih]

theorem charAtOff_eq_none_of_le (s : List Char) (i : Nat)
    (h : byteLen s ≤ i) : charAtOff s i = none := by
  induction s generalizing i with
  | nil => cases i <;> rfl
  | cons c cs ih =>
      have hpos := Char.utf8Size_pos c
      have hb : byteLen (c :: cs) = c.utf8Size + byteLen cs := rfl
      rw [hb] at h
      obtain ⟨m, hm⟩ : ∃ m, i = m + 1 := ⟨i - 1, by omega⟩
      subst hm
      simp only [charAtOff]
      rw [if_pos (by omega)]
      exact ih _ (by omega)

theorem charAtOff_eq_some_iff (s : List Char) (i : Nat) (c : Char) :
    charAtOff s i = some c ↔
      ∃ pre post, s = pre ++ c :: post ∧ byteLen pre = i := by
  induction s generalizing i with
  | nil =>
      simp only [charAtOff]
      constructor
      · intro h; exact absurd h (by simp)
      · rintro ⟨pre, post, he, -⟩
        exact absurd he.symm (by simp)
  | cons d ds ih =>
      cases i with
      | zero =>
          simp only [charAtOff]
          constructor
          · intro h
            injection h with h1
            exact ⟨[], ds, by rw [h1]; rfl, rfl⟩
          · rintro ⟨pre, post, he, hb⟩
            obtain rfl : pre = [] := (byteLen_eq_zero pre).mp hb
            injection he with h1 h2
            rw [h1]
      | succ k =>
          have hpos := Char.utf8Size_pos d
          simp only [charAtOff]
          by_cases hle : d.utf8Size ≤ k + 1
          · rw [if_pos hle, ih]
            constructor
            · rintro ⟨pre, post, he, hb⟩
              exact ⟨d :: pre, post, by rw [List.cons_append, he],
                     by simp [byteLen]; omega⟩
            · rintro ⟨pre, post, he, hb⟩
              rcases pre with _ | ⟨x, pre⟩
              · rw [show byteLen [] = 0 from rfl] at hb
                omega
              · injection he with h1 h2
                subst h1
                refine ⟨pre, post, h2, ?_⟩
                rw [show byteLen (d :: pre) = d.utf8Size + byteLen pre
                      from rfl] at hb
                omega
          · rw [if_neg hle]
            constructor
            · intro h; exact absurd h (by simp)
            · rintro ⟨pre, post, he, hb⟩
              rcases pre with _ | ⟨x, pre⟩
              · rw [show byteLen [] = 0 from rfl] at hb
                omega
              · injection he with h1 h2
                subst h1
                rw [show byteLen (d :: pre) = d.utf8Size + byteLen pre
                      from rfl] at hb
                omega

/-- The final `assert_eq!(last_n, index)` and `return token` of `nth_char`,
applied to the result of the `char_indices` loop. -/
def resolveLoop (r : Option (Char × Nat)) (index : Nat) : Option Char :=
  match r with
  | none => none
  | some (token, last_n) => if last_n = index then some token else none

theorem nth_char_def (s : List Char) (i : Nat) :
    nth_char s i =
      if byteLen s > i then
        resolveLoop (nthCharLoop (char_indices s) i '\x00' 0) i
      else none := by
  unfold nth_char resolveLoop
  rcases nthCharLoop (char_indices s) i '\x00' 0 with _ | ⟨t, ln⟩ <;> rfl

theorem resolveLoop_overshoot (cs : List Char) (base index : Nat)
    (token : Char) (last0 : Nat) (hb : index < base) (hl : last0 ≠ index) :
    resolveLoop (nthCharLoop (charIndicesAux base cs) index token last0)
      index = none := by
  cases cs with
  | nil => simp [charIndicesAux, nthCharLoop, resolveLoop, hl]
  | cons d ds =>
      simp [charIndicesAux, nthCharLoop, resolveLoop,
            show base ≠ index by omega, hb]

theorem resolveLoop_eq_charAtOff (s : List Char) :
    ∀ base index token last0, base ≤ index → index < base + byteLen s →
    resolveLoop (nthCharLoop (charIndicesAux base s) index token last0)
        index = charAtOff s (index - base) := by
  induction s with
  | nil =>
      intro base index token last0 h1 h2
      rw [show byteLen [] = 0 from rfl] at h2
      omega
  | cons c cs ih =>
      intro base index token last0 h1 h2
      have hpos := Char.utf8Size_pos c
      rw [show byteLen (c :: cs) = c.utf8Size + byteLen cs from rfl] at h2
      simp only [charIndicesAux, nthCharLoop]
      by_cases heq : base = index
      · subst heq
        simp [resolveLoop, charAtOff]
      · rw [if_neg heq, if_neg (by omega : ¬ index < base)]
        by_cases hin : index < base + c.utf8Size
        · rw [resolveLoop_overshoot cs (base + c.utf8Size) index token base
                hin (by omega)]
          obtain ⟨m, hm⟩ : ∃ m, index - base = m + 1 :=
            ⟨index - base - 1, by omega⟩
          rw [hm]
          simp only [charAtOff]
          rw [if_neg (by omega)]
        · rw [ih (base + c.utf8Size) index token base (by omega) (by omega)]
          obtain ⟨m, hm⟩ : ∃ m, index - base = m + 1 :=
            ⟨index - base - 1, by omega⟩
          rw [hm]
          simp only [charAtOff]
          rw [if_pos (by omega)]
          congr 1
          omega

theorem nth_char_eq_charAtOff (s : List Char) (i : Nat) :
    nth_char s i = charAtOff s i := by
  rw [nth_char_def]
  by_cases h : byteLen s > i
  · rw [if_pos h]
    have := resolveLoop_eq_charAtOff s 0 i '\x00' 0 (Nat.zero_le i)
      (by omega)
    simpa [char_indices] using this
  · rw [if_neg h]
    exact (charAtOff_eq_none_of_le s i (by omega)).symm

theorem isPrefixList_iff (pat s : List Char) :
    isPrefixList pat s = true ↔ ∃ t, s = pat ++ t := by
  induction pat generalizing s with
  | nil => simp [isPrefixList]
  | cons a as ih =>
      cases s with
      | nil => simp [isPrefixList]
      | cons b bs =>
          simp only [isPrefixList, Bool.and_eq_true, beq_iff_eq, ih]
          constructor
          · rintro ⟨rfl, t, rfl⟩
            exact ⟨t, rfl⟩
          · rintro ⟨t, ht⟩
            injection ht with h1 h2
            exact ⟨h1.symm, t, h2⟩

theorem containsSub_iff (line pat : List Char) :
    containsSub line pat = true ↔ ∃ s t, line = s ++ pat ++ t := by
  induction line with
  | nil =>
      simp only [containsSub, isPrefixList_iff]
      constructor
      · rintro ⟨t, ht⟩
        exact ⟨[], t, by simpa using ht⟩
      · rintro ⟨s, t, hst⟩
        rcases List.append_eq_nil.mp hst.symm with ⟨h1, h2⟩
        rcases List.append_eq_nil.mp h1 with ⟨h3, h4⟩
        exact ⟨[], by simp [h4]⟩
  | cons c rest ih =>
      simp only [containsSub, Bool.or_eq_true, isPrefixList_iff, ih]
      constructor
      · rintro (⟨t, ht⟩ | ⟨s, t, hst⟩)
        · exact ⟨[], t, by simpa using ht⟩
        · exact ⟨c :: s, t, by simp [hst]⟩
      · rintro ⟨s, t, hst⟩
        rcases s with _ | ⟨x, s⟩
        · exact Or.inl ⟨t, by simpa using hst⟩
        · right
          injection hst with h1 h2
          exact ⟨s, t, h2⟩

open error_kinds

theorem expectedEscape_new_spec (line : List Char) (index : Nat)
    (replace : List Char) (e : ExpectedEscape)
    (h : ExpectedEscape.new line index replace = some e) :
    ∃ pre post, line = pre ++ e.token :: post ∧ byteLen pre = index ∧
      e.fmt = some ("Expected escape sequence ".data ++ replace ++
        " instead of ".data ++ [e.token] ++ " in ".data ++ pre ++
        "\x7bhere\x7d".data ++ post) := by
  rcases hn : nth_char line index with _ | tok
  · simp [ExpectedEscape.new, hn] at h
  · simp [ExpectedEscape.new, hn] at h
    subst h
    rw [nth_char_eq_charAtOff] at hn
    rcases (charAtOff_eq_some_iff line index tok).mp hn with
      ⟨pre, post, he, hb⟩
    subst hb
    refine ⟨pre, post, he, rfl, ?_⟩
    have h1 : takeBytes line (byteLen pre) = some pre := by
      rw [he]; exact takeBytes_append pre (tok :: post)
    have h2 : dropBytes line (byteLen pre + tok.utf8Size) = some post := by
      rw [he, show byteLen pre + tok.utf8Size = byteLen (pre ++ [tok]) by
            simp [byteLen_append, byteLen],
          show pre ++ tok :: post = (pre ++ [tok]) ++ post by simp]
      exact dropBytes_append (pre ++ [tok]) post
    simp [ExpectedEscape.fmt, h1, h2]

theorem unexpectedToken_new_spec (line : List Char) (index : Nat)
    (u : UnexpectedToken)
    (h : UnexpectedToken.new line index = some u) :
    ∃ pre post, line = pre ++ u.token :: post ∧ byteLen pre = index ∧
      u.fmt = some ("Unexpected token ".data ++ [u.token] ++ " ".data ++
        pre ++ "\x7bhere\x7d".data) := by
  rcases hn : nth_char line index with _ | tok
  · simp [UnexpectedToken.new, hn] at h
  · simp [UnexpectedToken.new, hn] at h
    subst h
    rw [nth_char_eq_charAtOff] at hn
    rcases (charAtOff_eq_some_iff line index tok).mp hn with
      ⟨pre, post, he, hb⟩
    subst hb
    refine ⟨pre, post, he, rfl, ?_⟩
    have h1 : takeBytes line (byteLen pre) = some pre := by
      rw [he]; exact takeBytes_append pre (tok :: post)
    simp [UnexpectedToken.fmt, h1]

/-- C1 counterexample: at `line = "é"` and `index = 1` (inside the two-byte
encoding of `é`), `ExpectedIdentifier::new` succeeds but rendering panics,
and no split of the line at byte offset 1 exists, so the rendering is not
the claimed marker message. -/
theorem expectedIdentifier_claim_counterexample :
    1 < byteLen ['é'] ∧
    ExpectedIdentifier.new ['é'] 1 = some ⟨1, ['é']⟩ ∧
    (ExpectedIdentifier.mk 1 ['é']).fmt = none ∧
    ¬ ∃ pre post, (['é'] : List Char) = pre ++ post ∧ byteLen pre = 1 := by
  refine ⟨by decide, by decide, by decide, ?_⟩
  rintro ⟨pre, post, he, hb⟩
  rcases pre with _ | ⟨x, pre⟩
  · exact absurd hb (by decide)
  · injection he with h1 h2
    rcases List.append_eq_nil.mp h2.symm with ⟨hp, hq⟩
    subst hp
    subst h1
    exact absurd hb (by decide)

/-- C1 (amended): for every `index` strictly below the byte length of
`line`, `ExpectedIdentifier::new(line, index)` succeeds; whenever `index`
is moreover a character-boundary offset (`line = pre ++ post` with
`byteLen pre = index`), the rendering is `Expected identifier ` followed
by `line` split at `index` with the `{here}` marker at the split point. -/
theorem expectedIdentifier_new_and_render (line : List Char) (index : Nat)
    (h : index < byteLen line) :
    ExpectedIdentifier.new line index = some ⟨index, line⟩ ∧
    ∀ pre post, line = pre ++ post → byteLen pre = index →
      (ExpectedIdentifier.mk index line).fmt =
        some ("Expected identifier ".data ++ pre ++ "\x7bhere\x7d".data ++
          post) := by
  constructor
  · simp [ExpectedIdentifier.new, h]
  · rintro pre post rfl hb
    subst hb
    simp [ExpectedIdentifier.fmt, takeBytes_append, dropBytes_append]

theorem expectedIdentifier_new_and_render_witness :
    ExpectedIdentifier.new ['a', 'b'] 1 = some ⟨1, ['a', 'b']⟩ ∧
    (ExpectedIdentifier.mk 1 ['a', 'b']).fmt =
      some ("Expected identifier ".data ++ ['a'] ++ "\x7bhere\x7d".data ++
        ['b']) :=
  ⟨(expectedIdentifier_new_and_render ['a', 'b'] 1 (by decide)).1,
   (expectedIdentifier_new_and_render ['a', 'b'] 1 (by decide)).2
      ['a'] ['b'] (by decide) (by decide)⟩

/-- C2: for every string and every byte offset that is a character-start
offset of the string, `nth_char` returns exactly the character whose
encoding starts at that offset. -/
theorem nth_char_at_char_start (s : List Char) (i : Nat) (c : Char)
    (h : ∃ pre post, s = pre ++ c :: post ∧ byteLen pre = i) :
    nth_char s i = some c := by
  rw [nth_char_eq_charAtOff]
  exact (charAtOff_eq_some_iff s i c).mpr h

theorem nth_char_at_char_start_witness : nth_char ['a', 'é'] 1 = some 'é' :=
  nth_char_at_char_start ['a', 'é'] 1 'é' ⟨['a'], [], by decide, by decide⟩

/-- C3: `nth_char` panics (returns `none`) whenever the offset is not
strictly below the byte length, or lies strictly inside the multi-byte
encoding of a character (is not a character-start offset). -/
theorem nth_char_aborts_off_boundary (s : List Char) (i : Nat)
    (h : byteLen s ≤ i ∨
      (i < byteLen s ∧
        ∀ c pre post, s = pre ++ c :: post → byteLen pre ≠ i)) :
    nth_char s i = none := by
  rw [nth_char_eq_charAtOff]
  rcases h with h | ⟨hlt, hno⟩
  · exact charAtOff_eq_none_of_le s i h
  · rcases hc : charAtOff s i with _ | c
    · rfl
    · rcases (charAtOff_eq_some_iff s i c).mp hc with ⟨pre, post, he, hb⟩
      exact absurd hb (hno c pre post he)

theorem nth_char_aborts_off_boundary_witness : nth_char ['é'] 1 = none :=
  nth_char_aborts_off_boundary ['é'] 1 (Or.inr ⟨by decide,
    fun c pre post he => by
      rcases pre with _ | ⟨x, pre⟩
      · exact fun hb => absurd hb (by decide)
      · injection he with h1 h2
        rcases List.append_eq_nil.mp h2.symm with ⟨hp, hq⟩
        exact fun hb => absurd hq (List.cons_ne_nil c post)⟩)

/-- C4: with `index ≥` the byte length of `line`, all four index-based
constructors panic (return `none`). -/
theorem index_constructors_abort (line : List Char) (index : Nat)
    (tokens replace : List Char) (h : byteLen line ≤ index) :
    ExpectedIdentifier.new line index = none ∧
    ExpectedToken.new line index tokens = none ∧
    ExpectedEscape.new line index replace = none ∧
    UnexpectedToken.new line index = none := by
  have hgt : ¬ byteLen line > index := by omega
  have hn : nth_char line index = none := by
    unfold nth_char
    rw [if_neg hgt]
  refine ⟨?_, ?_, ?_, ?_⟩
  · unfold ExpectedIdentifier.new; rw [if_neg hgt]
  · unfold ExpectedToken.new; rw [if_neg hgt]
  · simp [ExpectedEscape.new, hn]
  · simp [UnexpectedToken.new, hn]

theorem index_constructors_abort_witness :
    ExpectedIdentifier.new ['a', 'b'] 2 = none ∧
    ExpectedToken.new ['a', 'b'] 2 ['t'] = none ∧
    ExpectedEscape.new ['a', 'b'] 2 ['r'] = none ∧
    UnexpectedToken.new ['a', 'b'] 2 = none :=
  index_constructors_abort ['a', 'b'] 2 ['t'] ['r'] (by decide)

/-- C5: whenever `ExpectedEscape::new(line, index, replace)` succeeds, the
stored token is the character whose encoding starts at byte offset `index`
in `line`, and the rendering splices `replace`, the token and the line
around the `{here}` marker with the offending character omitted between
the prefix and the remainder. -/
theorem expectedEscape_token_and_render (line : List Char) (index : Nat)
    (replace : List Char) (e : ExpectedEscape)
    (h : ExpectedEscape.new line index replace = some e) :
    ∃ pre post, line = pre ++ e.token :: post ∧ byteLen pre = index ∧
      e.fmt = some ("Expected escape sequence ".data ++ replace ++
        " instead of ".data ++ [e.token] ++ " in ".data ++ pre ++
        "\x7bhere\x7d".data ++ post) :=
  expectedEscape_new_spec line index replace e h

theorem expectedEscape_token_and_render_witness :
    ∃ pre post, (['a', 'X', 'b'] : List Char) =
        pre ++ (ExpectedEscape.mk 1 ['a', 'X', 'b'] ['r'] 'X').token ::
          post ∧
      byteLen pre = 1 ∧
      (ExpectedEscape.mk 1 ['a', 'X', 'b'] ['r'] 'X').fmt =
        some ("Expected escape sequence ".data ++ ['r'] ++
          " instead of ".data ++
          [(ExpectedEscape.mk 1 ['a', 'X', 'b'] ['r'] 'X').token] ++
          " in ".data ++ pre ++ "\x7bhere\x7d".data ++ post) :=
  expectedEscape_token_and_render ['a', 'X', 'b'] 1 ['r']
    (ExpectedEscape.mk 1 ['a', 'X', 'b'] ['r'] 'X') (by decide)

/-- C6: `InvalidEscape::new(line, escape)` succeeds exactly when `escape`
occurs literally as a substring of `line`; otherwise it panics. -/
theorem invalidEscape_new_iff (line escape : List Char) :
    (InvalidEscape.new line escape).isSome = true ↔
      ∃ s t, line = s ++ escape ++ t := by
  rw [← containsSub_iff]
  unfold InvalidEscape.new
  cases hc : containsSub line escape <;> simp [hc]

/-- C7: `InvalidIdentifier::new(line, identifier)` succeeds exactly when
`identifier` occurs as a substring of `line` and the external validity
predicate rejects it; it panics when the identifier is valid or absent. -/
theorem invalidIdentifier_new_iff (is_valid : List Char → Bool)
    (line identifier : List Char) :
    (InvalidIdentifier.new is_valid line identifier).isSome = true ↔
      ((∃ s t, line = s ++ identifier ++ t) ∧
        is_valid identifier = false) := by
  rw [← containsSub_iff]
  unfold InvalidIdentifier.new
  cases hc : containsSub line identifier <;>
    cases hv : is_valid identifier <;> simp [hc, hv]

/-- C8: the unified `Error`'s rendering is pure delegation to whichever
kind it wraps, adding no formatting of its own. -/
theorem error_fmt_delegates :
    (∀ k, Error.fmt (Error.ExpectedIdentifier k) = k.fmt) ∧
    (∀ k, Error.fmt (Error.ExpectedToken k) = k.fmt) ∧
    (∀ k, Error.fmt (Error.ExpectedEscape k) = k.fmt) ∧
    (∀ k, Error.fmt (Error.UnexpectedToken k) = k.fmt) ∧
    (∀ k, Error.fmt (Error.InvalidEscape k) = k.fmt) ∧
    (∀ k, Error.fmt (Error.InvalidIdentifier k) = k.fmt) :=
  ⟨fun _ => rfl, fun _ => rfl, fun _ => rfl, fun _ => rfl, fun _ => rfl,
   fun _ => rfl⟩

/-- C9: every successfully constructed `ExpectedEscape` or
`UnexpectedToken` renders without panicking: the position resolver
guarantees `index` is a character-start offset, so every byte slice of the
`Display` implementations is in range and on a character boundary. -/
theorem derived_render_total (line : List Char) (index : Nat)
    (replace : List Char) :
    (∀ e, ExpectedEscape.new line index replace = some e →
      e.fmt.isSome = true) ∧
    (∀ u, UnexpectedToken.new line index = some u →
      u.fmt.isSome = true) := by
  constructor
  · intro e h
    rcases expectedEscape_new_spec line index replace e h with
      ⟨pre, post, -, -, hf⟩
    simp [hf]
  · intro u h
    rcases unexpectedToken_new_spec line index u h with
      ⟨pre, post, -, -, hf⟩
    simp [hf]

theorem derived_render_total_witness :
    ((ExpectedEscape.mk 1 ['a', 'é', 'b'] ['r'] 'é').fmt).isSome = true ∧
    ((UnexpectedToken.mk 1 ['a', 'é', 'b'] 'é').fmt).isSome = true :=
  ⟨(derived_render_total ['a', 'é', 'b'] 1 ['r']).1
      (ExpectedEscape.mk 1 ['a', 'é', 'b'] ['r'] 'é') (by decide),
   (derived_render_total ['a', 'é', 'b'] 1 ['r']).2
      (UnexpectedToken.mk 1 ['a', 'é', 'b'] 'é') (by decide)⟩

/-- C10: `InvalidEscape::new(line, "")` succeeds for every line, the empty
string being a substring of every line, and renders as
`Invalid escape sequence  in <line>` with an empty escape between the two
spaces. -/
theorem invalidEscape_empty_escape (line : List Char) :
    InvalidEscape.new line [] = some ⟨line, []⟩ ∧
    (InvalidEscape.mk line []).fmt =
      some ("Invalid escape sequence  in ".data ++ line) := by
  constructor
  · have hc : containsSub line [] = true := by
      cases line <;> simp [containsSub, isPrefixList]
    simp [InvalidEscape.new, hc]
  · rfl
